import Mathlib

/-!
Shallow embedding of `rust-libintern` (src/lib.rs): a value-deduplicating
arena interner.  Chunks (`InternedItemHolder`) are fixed-capacity vectors;
the `Interner` owns a list of chunks; `Intern` is a handle to a stored value,
identified by its storage address.  A storage address is modelled as the pair
(chunk index, slot index), which uniquely determines the machine address of a
slot since chunks never move or resize their occupied contents.
-/

/-- Models `struct InternedItemHolder<T> { items: Vec<T> }` where the vector
was created with `Vec::with_capacity(capacity)` and is never grown beyond it.
The `capacity` field records the vector's capacity. -/
structure InternedItemHolder (T : Type) where
  items : List T
  capacity : Nat
  deriving DecidableEq, Repr

namespace InternedItemHolder

/-- Models `InternedItemHolder::new(capacity)`: `Vec::with_capacity(capacity)`. -/
def new (T : Type) (capacity : Nat) : InternedItemHolder T :=
  ⟨[], capacity⟩

/-- Models `InternedItemHolder::try_push`.  Rust signature
`fn try_push(&mut self, item: T) -> Result<(), T>`; we pass the mutated
holder explicitly, so the result is the new holder paired with the
`Result`: `Except.ok ()` on success, `Except.error item` when full. -/
def try_push {T : Type} (h : InternedItemHolder T) (item : T) :
    InternedItemHolder T × Except T Unit :=
  if h.items.length = h.capacity then
    (h, Except.error item)
  else
    (⟨h.items ++ [item], h.capacity⟩, Except.ok ())

end InternedItemHolder

/-- Models `const BEGIN_INTERNER_CAPACITY: usize = 32`. -/
def BEGIN_INTERNER_CAPACITY : Nat := 32

/-- Models `(last_holder_capacity as f32 * INTERNER_CAPACITY_DELTA) as usize`
with `INTERNER_CAPACITY_DELTA = 1.5`.  For every capacity `c ≤ 2^22` the f32
product `c * 1.5` is computed exactly and truncation gives `⌊3c/2⌋`, so Nat
division is a faithful model on the whole reachable range (capacities start
at 32). -/
def nextCapacity (c : Nat) : Nat := 3 * c / 2

/-- Models `struct Interner<'a, T> { holders: Vec<InternedItemHolder<T>> }`. -/
structure Interner (T : Type) where
  holders : List (InternedItemHolder T)
  deriving DecidableEq, Repr

/-- Models `struct Intern<'a, T>(Pin<&'a T>)`: a handle to a stored value.
The wrapped pointer is modelled by the storage address `(holderIdx, slotIdx)`
of the slot it points into, plus the pointed-to value (the slot's contents,
immutable for the life of the store), which dereferencing yields. -/
structure Intern (T : Type) where
  holderIdx : Nat
  slotIdx : Nat
  value : T
  deriving DecidableEq, Repr

namespace Intern

/-- The storage address underlying a handle. -/
def addr {T : Type} (a : Intern T) : Nat × Nat := (a.holderIdx, a.slotIdx)

/-- Models `impl PartialEq for Intern`: `std::ptr::eq(self.as_ref(), other.as_ref())`,
a comparison of the storage addresses, never of the values. -/
def beq {T : Type} (a b : Intern T) : Bool :=
  a.holderIdx == b.holderIdx && a.slotIdx == b.slotIdx

/-- Models `impl Hash for Intern`: `std::ptr::hash(self.0.get_ref(), state)`
hashes the pointer, not the value.  The pointer is a function of the storage
address alone, modelled with the injective pairing `Nat.pair`. -/
def hashAddr {T : Type} (a : Intern T) : Nat :=
  Nat.pair a.holderIdx a.slotIdx

/-- Models `impl Ord for Intern`: `self.0.cmp(&other.0)` where `self.0 : Pin<&T>`;
`Pin`'s `Ord` delegates to the pointed-to values, so handles are ordered by the
referenced values' own ordering. -/
def cmp {T : Type} [LinearOrder T] (a b : Intern T) : Ordering :=
  compare a.value b.value

end Intern

namespace Interner

/-- Models `Interner::new()`: one holder of capacity `BEGIN_INTERNER_CAPACITY`. -/
def new (T : Type) : Interner T :=
  ⟨[InternedItemHolder.new T BEGIN_INTERNER_CAPACITY]⟩

/-- Models the scan of one holder's `items` in the `intern` loop: the inner
`for h_item in &holder.items { if &item == h_item { result = Some(h_item); break } }`
takes the first match; we return its slot index and the stored value. -/
def findFirst {T : Type} [DecidableEq T] : List T → T → Option (Nat × T)
  | [], _ => none
  | y :: rest, item =>
    if item = y then some (0, y)
    else (findFirst rest item).map (fun p => (p.1 + 1, p.2))

/-- Models the outer loop of the scan in `intern`: `result` is overwritten by
each later holder that contains a match (the `break` only leaves the inner
loop), so the final `result` is the first match inside the last holder that
has one.  Returns (holder index, slot index, stored value). -/
def scanHolders {T : Type} [DecidableEq T] :
    List (InternedItemHolder T) → T → Option (Nat × Nat × T)
  | [], _ => none
  | h :: rest, item =>
    match scanHolders rest item with
    | some (i, j, v) => some (i + 1, j, v)
    | none => (findFirst h.items item).map (fun p => (0, p.1, p.2))

/-- Models `Interner::hold_new_item`: try to push into the last holder; if it
is full, create a new holder of capacity `nextCapacity` holding the item and
append it.  The `holders.last_mut().unwrap()` of the source panics on an empty
holder list; that state is unreachable (`new` creates one holder and none is
ever removed), and we return the interner unchanged there. -/
def hold_new_item {T : Type} (int : Interner T) (item : T) : Interner T :=
  match int.holders.getLast? with
  | none => int
  | some last =>
    match last.try_push item with
    | (last', Except.ok ()) => ⟨int.holders.dropLast ++ [last']⟩
    | (_, Except.error item') =>
      ⟨int.holders ++ [⟨[item'], nextCapacity last.capacity⟩]⟩

/-- Models `Interner::intern`: scan all holders for an equal item; if found,
return a handle to the found slot and leave the store unchanged; otherwise
`hold_new_item` and return a handle to the last slot of the last holder
(where `hold_new_item` guarantees the item was placed).  The two `unwrap`
calls of the source cannot fail on reachable states; the fallback arms model
their unreachable branches. -/
def intern {T : Type} [DecidableEq T] (int : Interner T) (item : T) :
    Intern T × Interner T :=
  match scanHolders int.holders item with
  | some (i, j, v) => (⟨i, j, v⟩, int)
  | none =>
    let int' := int.hold_new_item item
    match int'.holders.getLast? with
    | some l =>
      match l.items.getLast? with
      | some v => (⟨int'.holders.length - 1, l.items.length - 1, v⟩, int')
      | none => (⟨0, 0, item⟩, int')
    | none => (⟨0, 0, item⟩, int')

/-- Models `Interner::contains`: scan every holder's items for an equal value;
`&self` only, so the store is unchanged by construction. -/
def contains {T : Type} [DecidableEq T] (int : Interner T) (item : T) : Bool :=
  int.holders.any (fun h => h.items.any (fun y => decide (item = y)))

end Interner

/-- All values stored in the interner, in chunk-creation order and, within a
chunk, insertion order. -/
def allItems {T : Type} (int : Interner T) : List T :=
  (int.holders.map (fun h => h.items)).flatten

/-- The value stored at address (i, j), if that slot is occupied. -/
def getAt {T : Type} (int : Interner T) (i j : Nat) : Option T :=
  int.holders[i]?.bind (fun h => h.items[j]?)

/-- Fold `intern` over a list of inputs, starting from a given store. -/
def internAllFrom {T : Type} [DecidableEq T] (int : Interner T) (xs : List T) :
    Interner T :=
  xs.foldl (fun s x => (s.intern x).2) int

/-- Fold `intern` over a list of inputs, starting from `Interner::new()`. -/
def internAll {T : Type} [DecidableEq T] (xs : List T) : Interner T :=
  internAllFrom (Interner.new T) xs

/-- The outcome of one `Iter::next` call: `done` models returning `None`,
`yield` models returning `Some(handle)` with the iterator's updated cursor,
and `crash` models the panic of `&holder.items[self.inside_holder_id]` when
the index is out of bounds. -/
inductive IterStep (T : Type) where
  | done : IterStep T
  | crash : IterStep T
  | yieldH : Intern T → Nat × Nat → IterStep T
  deriving DecidableEq, Repr

/-- Models `Iter::next` (the cursor is the pair `(holder_id, inside_holder_id)`):
out-of-range `holder_id` returns `None`; otherwise the item at
`inside_holder_id` is read (a panic if out of bounds, e.g. on an empty
holder), the cursor advances to the next holder when at the last item, and a
handle to the slot is returned. -/
def Iter.next {T : Type} (int : Interner T) (st : Nat × Nat) : IterStep T :=
  match int.holders[st.1]? with
  | none => IterStep.done
  | some holder =>
    match holder.items[st.2]? with
    | none => IterStep.crash
    | some item =>
      let st' : Nat × Nat :=
        if st.2 = holder.items.length - 1 then (st.1 + 1, 0) else (st.1, st.2 + 1)
      IterStep.yieldH ⟨st.1, st.2, item⟩ st'

/-- Run the iterator to exhaustion with explicit fuel; `none` when the fuel
runs out or a step crashes, `some hs` when the iterator returned `None` after
yielding `hs`. -/
def iterCollect {T : Type} (int : Interner T) : Nat → Nat × Nat → Option (List (Intern T))
  | 0, _ => none
  | fuel + 1, st =>
    match Iter.next int st with
    | IterStep.done => some []
    | IterStep.crash => none
    | IterStep.yieldH h st' => (iterCollect int fuel st').map (fun hs => h :: hs)

/-- Models `int.iter().collect()`: run a fresh iterator (cursor `(0,0)`,
as built by `Interner::iter`) with enough fuel for a complete traversal (one
step per stored value plus the final step that reports the end). -/
def iterAll {T : Type} (int : Interner T) : Option (List (Intern T)) :=
  iterCollect int ((allItems int).length + 1) (0, 0)

/-- Models `Interner::iter`: `Iter { interner: self, holder_id: 0, inside_holder_id: 0 }`.
The iterator's cursor is the pair of counters, both zero for a fresh iterator;
each call builds a fresh cursor, so iterations are independent. -/
def Interner.iter {T : Type} (_int : Interner T) : Nat × Nat := (0, 0)

/-- Well-formedness of a store state, as established by `Interner::new` and
preserved by `intern`: there is at least one holder; every holder but the last
is full; the last holder respects its capacity, has positive capacity, and is
empty only in the initial state; and the stored values are pairwise distinct
(the dedup invariant). -/
def StoreWF {T : Type} (int : Interner T) : Prop :=
  int.holders ≠ []
  ∧ (∀ h ∈ int.holders.dropLast, h.items.length = h.capacity)
  ∧ (∀ last, int.holders.getLast? = some last →
      last.items.length ≤ last.capacity ∧ 1 ≤ last.capacity
      ∧ (last.items = [] → int = Interner.new T))
  ∧ (allItems int).Nodup


/-! ### Correctness of the linear scan -/

theorem findFirst_none_iff {T : Type} [DecidableEq T] (items : List T) (x : T) :
    Interner.findFirst items x = none ↔ x ∉ items := by
  induction items with
  | nil => simp [Interner.findFirst]
  | cons y rest ih =>
    by_cases hxy : x = y
    · simp [Interner.findFirst, hxy]
    · simp [Interner.findFirst, hxy, Option.map_eq_none', ih]

theorem findFirst_some {T : Type} [DecidableEq T] {items : List T} {x : T} {j : Nat} {v : T}
    (h : Interner.findFirst items x = some (j, v)) : x = v ∧ items[j]? = some v := by
  induction items generalizing j with
  | nil => simp [Interner.findFirst] at h
  | cons y rest ih =>
    unfold Interner.findFirst at h
    by_cases hxy : x = y
    · rw [if_pos hxy] at h
      have h' : ((0, y) : Nat × T) = (j, v) := Option.some_injective _ h
      have hj : (0 : Nat) = j := congrArg Prod.fst h'
      have hv : y = v := congrArg Prod.snd h'
      subst hj; subst hv
      exact ⟨hxy, by simp⟩
    · rw [if_neg hxy] at h
      rcases hmap : Interner.findFirst rest x with _ | ⟨j0, v0⟩
      · rw [hmap] at h; simp at h
      · rw [hmap] at h
        simp only [Option.map_some'] at h
        have h' : ((j0 + 1, v0) : Nat × T) = (j, v) := Option.some_injective _ h
        have hj : j0 + 1 = j := congrArg Prod.fst h'
        have hv : v0 = v := congrArg Prod.snd h'
        subst hj; subst hv
        obtain ⟨hxv, hget⟩ := ih hmap
        exact ⟨hxv, by simpa using hget⟩

theorem scanHolders_none_iff {T : Type} [DecidableEq T]
    (hs : List (InternedItemHolder T)) (x : T) :
    Interner.scanHolders hs x = none ↔ x ∉ (hs.map (fun h => h.items)).flatten := by
  induction hs with
  | nil => simp [Interner.scanHolders]
  | cons h rest ih =>
    unfold Interner.scanHolders
    rcases hscan : Interner.scanHolders rest x with _ | ⟨i, j, v⟩
    · have hmem : x ∉ (rest.map (fun h => h.items)).flatten := ih.mp hscan
      simp only [List.map_cons, List.flatten_cons, List.mem_append]
      simp [Option.map_eq_none', findFirst_none_iff, hmem]
    · have hmem : x ∈ (rest.map (fun h => h.items)).flatten := by
        by_contra hmem
        exact Option.noConfusion ((ih.mpr hmem).symm.trans hscan)
      simp [hmem]

theorem scanHolders_some {T : Type} [DecidableEq T]
    {hs : List (InternedItemHolder T)} {x : T} {i j : Nat} {v : T}
    (h : Interner.scanHolders hs x = some (i, j, v)) :
    x = v ∧ hs[i]?.bind (fun h => h.items[j]?) = some v := by
  induction hs generalizing i with
  | nil => simp [Interner.scanHolders] at h
  | cons h0 rest ih =>
    unfold Interner.scanHolders at h
    rcases hscan : Interner.scanHolders rest x with _ | ⟨i0, j0, v0⟩
    · rw [hscan] at h
      simp only [Option.map_eq_some'] at h
      obtain ⟨⟨j1, v1⟩, hfind, heq⟩ := h
      obtain ⟨hi, hj, hv⟩ : 0 = i ∧ j1 = j ∧ v1 = v := by
        constructor
        · exact congrArg Prod.fst heq
        · exact ⟨congrArg (fun p => p.2.1) heq, congrArg (fun p => p.2.2) heq⟩
      subst hi; subst hj; subst hv
      obtain ⟨hxv, hget⟩ := findFirst_some hfind
      exact ⟨hxv, by simpa using hget⟩
    · rw [hscan] at h
      obtain ⟨hi, hj, hv⟩ : i0 + 1 = i ∧ j0 = j ∧ v0 = v := by
        refine ⟨congrArg (fun p => p.1) (Option.some_injective _ h), ?_, ?_⟩
        · exact congrArg (fun p => p.2.1) (Option.some_injective _ h)
        · exact congrArg (fun p => p.2.2) (Option.some_injective _ h)
      subst hi; subst hj; subst hv
      obtain ⟨hxv, hget⟩ := ih hscan
      exact ⟨hxv, by simpa using hget⟩

/-! ### Structure of `hold_new_item` -/

theorem hold_new_item_eq {T : Type} (int : Interner T) (x : T)
    (rest : List (InternedItemHolder T)) (last : InternedItemHolder T)
    (hh : int.holders = rest ++ [last]) :
    (int.hold_new_item x).holders =
      if last.items.length = last.capacity
      then rest ++ [last, ⟨[x], nextCapacity last.capacity⟩]
      else rest ++ [⟨last.items ++ [x], last.capacity⟩] := by
  unfold Interner.hold_new_item
  rw [hh, List.getLast?_concat]
  unfold InternedItemHolder.try_push
  by_cases hfull : last.items.length = last.capacity
  · simp [hfull, List.append_assoc]
  · simp [hfull, List.dropLast_concat]

/-- Case analysis of `hold_new_item` on a store with at least one holder:
either the last holder is full and a fresh holder with the grown capacity is
appended, or the item is appended in place to the last holder. -/
theorem hold_new_item_cases {T : Type} (int : Interner T) (x : T)
    (hne : int.holders ≠ []) :
    ∃ rest last, int.holders = rest ++ [last] ∧
      ((last.items.length = last.capacity ∧
         (int.hold_new_item x).holders =
           (rest ++ [last]) ++ [⟨[x], nextCapacity last.capacity⟩])
       ∨ (last.items.length ≠ last.capacity ∧
         (int.hold_new_item x).holders = rest ++ [⟨last.items ++ [x], last.capacity⟩])) := by
  rcases List.eq_nil_or_concat int.holders with hnil | ⟨rest, last, hh⟩
  · exact absurd hnil hne
  · rw [List.concat_eq_append] at hh
    refine ⟨rest, last, hh, ?_⟩
    have heq := hold_new_item_eq int x rest last hh
    by_cases hfull : last.items.length = last.capacity
    · refine Or.inl ⟨hfull, ?_⟩
      rw [heq, if_pos hfull]
      simp
    · refine Or.inr ⟨hfull, ?_⟩
      rw [heq, if_neg hfull]

theorem allItems_hold_new_item {T : Type} (int : Interner T) (x : T)
    (hne : int.holders ≠ []) :
    allItems (int.hold_new_item x) = allItems int ++ [x] := by
  obtain ⟨rest, last, hh, ⟨_, hres⟩ | ⟨_, hres⟩⟩ := hold_new_item_cases int x hne
  · unfold allItems
    rw [hres, hh]
    simp [List.map_append, List.flatten_append]
  · unfold allItems
    rw [hres, hh]
    simp [List.map_append, List.flatten_append]

theorem getAt_hold_new_item {T : Type} (int : Interner T) (x : T) {i j : Nat} {v : T}
    (h : getAt int i j = some v) : getAt (int.hold_new_item x) i j = some v := by
  by_cases hne : int.holders = []
  · have hid : int.hold_new_item x = int := by
      unfold Interner.hold_new_item
      rw [hne]
      rfl
    rw [hid]; exact h
  · obtain ⟨rest, last, hh, ⟨_, hres⟩ | ⟨_, hres⟩⟩ := hold_new_item_cases int x hne
    · unfold getAt at h ⊢
      rw [hres]
      rw [hh] at h
      have hi : i < (rest ++ [last]).length := by
        by_contra hlt
        push_neg at hlt
        rw [List.getElem?_eq_none hlt] at h
        simp at h
      rw [List.getElem?_append_left hi]
      exact h
    · unfold getAt at h ⊢
      rw [hres]
      rw [hh] at h
      rcases Nat.lt_trichotomy i rest.length with hlt | hieq | hgt
      · rw [List.getElem?_append_left hlt] at h ⊢
        exact h
      · subst hieq
        rw [List.getElem?_concat_length] at h
        simp only [Option.some_bind] at h
        have hj : j < last.items.length := by
          rcases List.getElem?_eq_some.mp h with ⟨hj, _⟩
          exact hj
        rw [List.getElem?_concat_length]
        simp only [Option.some_bind]
        rw [List.getElem?_append_left hj]
        exact h
      · have hge : (rest ++ [last]).length ≤ i := by
          simp only [List.length_append, List.length_cons, List.length_nil]
          omega
        rw [List.getElem?_eq_none hge] at h
        simp at h

/-- After `hold_new_item`, the last holder exists, its last item is the new
item, and the address (last holder, last slot) resolves to the new item. -/
theorem hold_new_item_last {T : Type} (int : Interner T) (x : T)
    (hne : int.holders ≠ []) :
    ∃ l, (int.hold_new_item x).holders.getLast? = some l
      ∧ l.items.getLast? = some x
      ∧ getAt (int.hold_new_item x) ((int.hold_new_item x).holders.length - 1)
          (l.items.length - 1) = some x
      ∧ (int.hold_new_item x).holders ≠ [] := by
  obtain ⟨rest, last, hh, ⟨_, hres⟩ | ⟨_, hres⟩⟩ := hold_new_item_cases int x hne
  · refine ⟨⟨[x], nextCapacity last.capacity⟩, ?_, by simp, ?_, ?_⟩
    · rw [hres, List.getLast?_concat]
    · unfold getAt
      rw [hres]
      have hlen : (rest ++ [last] ++ [(⟨[x], nextCapacity last.capacity⟩ :
          InternedItemHolder T)]).length - 1 = (rest ++ [last]).length := by simp
      rw [hlen, List.getElem?_concat_length]
      simp
    · rw [hres]; simp
  · refine ⟨⟨last.items ++ [x], last.capacity⟩, ?_, by simp, ?_, ?_⟩
    · rw [hres, List.getLast?_concat]
    · unfold getAt
      rw [hres]
      have hlen : (rest ++ [(⟨last.items ++ [x], last.capacity⟩ :
          InternedItemHolder T)]).length - 1 = rest.length := by simp
      rw [hlen, List.getElem?_concat_length]
      simp [List.getElem?_concat_length]
    · rw [hres]; simp

theorem intern_eq_found {T : Type} [DecidableEq T] {int : Interner T} {x : T}
    {i j : Nat} {v : T}
    (h : Interner.scanHolders int.holders x = some (i, j, v)) :
    int.intern x = (⟨i, j, v⟩, int) := by
  unfold Interner.intern
  rw [h]

theorem intern_eq_new {T : Type} [DecidableEq T] {int : Interner T} {x : T}
    (hnone : Interner.scanHolders int.holders x = none) (hne : int.holders ≠ []) :
    ∃ l, (int.hold_new_item x).holders.getLast? = some l
      ∧ l.items.getLast? = some x
      ∧ int.intern x = (⟨(int.hold_new_item x).holders.length - 1,
          l.items.length - 1, x⟩, int.hold_new_item x) := by
  obtain ⟨l, hlast, hxlast, _, _⟩ := hold_new_item_last int x hne
  refine ⟨l, hlast, hxlast, ?_⟩
  unfold Interner.intern
  rw [hnone]
  simp only [hlast, hxlast]

/-! ### Behaviour of `intern` on the abstract state -/

theorem getAt_mem {T : Type} {int : Interner T} {i j : Nat} {v : T}
    (h : getAt int i j = some v) : v ∈ allItems int := by
  unfold getAt at h
  rcases hopt : int.holders[i]? with _ | holder
  · rw [hopt] at h; simp at h
  · rw [hopt] at h
    simp only [Option.some_bind] at h
    unfold allItems
    rw [List.mem_flatten]
    exact ⟨holder.items, List.mem_map_of_mem _ (List.getElem?_mem hopt),
      List.getElem?_mem h⟩

theorem intern_of_empty {T : Type} [DecidableEq T] (int : Interner T) (y : T)
    (hnil : int.holders = []) : (int.intern y).2 = int := by
  unfold Interner.intern
  have hscan : Interner.scanHolders int.holders y = none := by rw [hnil]; rfl
  rw [hscan]
  have hid : int.hold_new_item y = int := by
    unfold Interner.hold_new_item
    rw [hnil]
    rfl
  simp only [hid, hnil, List.getLast?_nil]

theorem holders_ne_nil_intern {T : Type} [DecidableEq T] (int : Interner T) (x : T)
    (hne : int.holders ≠ []) : (int.intern x).2.holders ≠ [] := by
  rcases hscan : Interner.scanHolders int.holders x with _ | ⟨i, j, v⟩
  · obtain ⟨l, _, _, heq⟩ := intern_eq_new hscan hne
    rw [heq]
    obtain ⟨_, _, _, _, hne'⟩ := hold_new_item_last int x hne
    exact hne'
  · rw [intern_eq_found hscan]
    exact hne

theorem allItems_intern {T : Type} [DecidableEq T] (int : Interner T) (x : T)
    (hne : int.holders ≠ []) :
    allItems (int.intern x).2 =
      if x ∈ allItems int then allItems int else allItems int ++ [x] := by
  rcases hscan : Interner.scanHolders int.holders x with _ | ⟨i, j, v⟩
  · have hmem : x ∉ allItems int := (scanHolders_none_iff int.holders x).mp hscan
    obtain ⟨l, _, _, heq⟩ := intern_eq_new hscan hne
    rw [heq, if_neg hmem]
    exact allItems_hold_new_item int x hne
  · obtain ⟨hxv, hget⟩ := scanHolders_some hscan
    have hmem : x ∈ allItems int := by
      subst hxv
      exact getAt_mem hget
    rw [intern_eq_found hscan, if_pos hmem]

theorem intern_handle_getAt {T : Type} [DecidableEq T] (int : Interner T) (x : T)
    (hne : int.holders ≠ []) :
    (int.intern x).1.value = x ∧
    getAt (int.intern x).2 (int.intern x).1.holderIdx (int.intern x).1.slotIdx
      = some x := by
  rcases hscan : Interner.scanHolders int.holders x with _ | ⟨i, j, v⟩
  · obtain ⟨l, hlast, hxlast, heq⟩ := intern_eq_new hscan hne
    obtain ⟨l', hlast', _, hget, _⟩ := hold_new_item_last int x hne
    have hll : l' = l := by
      rw [hlast] at hlast'
      exact (Option.some_injective _ hlast').symm
    subst hll
    rw [heq]
    exact ⟨rfl, hget⟩
  · obtain ⟨hxv, hget⟩ := scanHolders_some hscan
    subst hxv
    rw [intern_eq_found hscan]
    exact ⟨rfl, hget⟩

theorem getAt_intern_mono {T : Type} [DecidableEq T] (int : Interner T) (y : T)
    {i j : Nat} {v : T} (h : getAt int i j = some v) :
    getAt (int.intern y).2 i j = some v := by
  by_cases hnil : int.holders = []
  · rw [intern_of_empty int y hnil]
    exact h
  · rcases hscan : Interner.scanHolders int.holders y with _ | ⟨i0, j0, v0⟩
    · obtain ⟨l, _, _, heq⟩ := intern_eq_new hscan hnil
      rw [heq]
      exact getAt_hold_new_item int y h
    · rw [intern_eq_found hscan]
      exact h

theorem nodup_allItems_intern {T : Type} [DecidableEq T] (int : Interner T) (x : T)
    (hne : int.holders ≠ []) (hnd : (allItems int).Nodup) :
    (allItems (int.intern x).2).Nodup := by
  rw [allItems_intern int x hne]
  split_ifs with hmem
  · exact hnd
  · refine List.Nodup.append hnd (List.nodup_singleton x) ?_
    intro a ha hb
    rw [List.mem_singleton] at hb
    subst hb
    exact hmem ha

/-! ### Folding `intern` over a list of inputs -/

theorem internAllFrom_cons {T : Type} [DecidableEq T] (int : Interner T) (y : T)
    (rest : List T) :
    internAllFrom int (y :: rest) = internAllFrom (int.intern y).2 rest := rfl

theorem holders_ne_nil_internAllFrom {T : Type} [DecidableEq T] (int : Interner T)
    (xs : List T) (hne : int.holders ≠ []) :
    (internAllFrom int xs).holders ≠ [] := by
  induction xs generalizing int with
  | nil => exact hne
  | cons x rest ih => exact ih _ (holders_ne_nil_intern int x hne)

theorem getAt_internAllFrom_mono {T : Type} [DecidableEq T] (int : Interner T)
    (ys : List T) {i j : Nat} {v : T} (h : getAt int i j = some v) :
    getAt (internAllFrom int ys) i j = some v := by
  induction ys generalizing int with
  | nil => exact h
  | cons y rest ih => exact ih _ (getAt_intern_mono int y h)

theorem mem_allItems_internAllFrom {T : Type} [DecidableEq T] (int : Interner T)
    (ys : List T) (hne : int.holders ≠ []) (x : T) :
    x ∈ allItems (internAllFrom int ys) ↔ x ∈ allItems int ∨ x ∈ ys := by
  induction ys generalizing int with
  | nil => simp [internAllFrom]
  | cons y rest ih =>
    rw [internAllFrom_cons, ih _ (holders_ne_nil_intern int y hne),
      allItems_intern int y hne]
    split_ifs with hmem
    · constructor
      · rintro (h1 | h1)
        · exact Or.inl h1
        · exact Or.inr (List.mem_cons_of_mem _ h1)
      · rintro (h1 | h1)
        · exact Or.inl h1
        · rcases List.mem_cons.mp h1 with h2 | h2
          · exact Or.inl (h2 ▸ hmem)
          · exact Or.inr h2
    · simp only [List.mem_append, List.mem_singleton, List.mem_cons]
      tauto

theorem nodup_allItems_internAllFrom {T : Type} [DecidableEq T] (int : Interner T)
    (ys : List T) (hne : int.holders ≠ []) (hnd : (allItems int).Nodup) :
    (allItems (internAllFrom int ys)).Nodup := by
  induction ys generalizing int with
  | nil => exact hnd
  | cons y rest ih =>
    rw [internAllFrom_cons]
    exact ih _ (holders_ne_nil_intern int y hne)
      (nodup_allItems_intern int y hne hnd)

/-! ### Distinct occupied slots hold distinct values (given the dedup invariant) -/

theorem getAtL_inj {T : Type} (hs : List (InternedItemHolder T))
    (hnd : ((hs.map (fun h => h.items)).flatten).Nodup)
    {i j i' j' : Nat} {v : T}
    (h1 : hs[i]?.bind (fun h => h.items[j]?) = some v)
    (h2 : hs[i']?.bind (fun h => h.items[j']?) = some v) :
    i = i' ∧ j = j' := by
  induction hs generalizing i i' with
  | nil => simp at h1
  | cons h0 rest ih =>
    simp only [List.map_cons, List.flatten_cons, List.nodup_append] at hnd
    obtain ⟨hnd0, hndr, hdisj⟩ := hnd
    cases i with
    | zero =>
      cases i' with
      | zero =>
        simp only [List.getElem?_cons_zero, Option.some_bind] at h1 h2
        have hj : j < h0.items.length := (List.getElem?_eq_some.mp h1).1
        exact ⟨rfl, List.getElem?_inj hj hnd0 (h1.trans h2.symm)⟩
      | succ i' =>
        simp only [List.getElem?_cons_zero, List.getElem?_cons_succ,
          Option.some_bind] at h1 h2
        have hv0 : v ∈ h0.items := List.getElem?_mem h1
        have hvr : v ∈ (rest.map (fun h => h.items)).flatten := by
          rcases hopt : rest[i']? with _ | holder
          · rw [hopt] at h2; simp at h2
          · rw [hopt] at h2
            simp only [Option.some_bind] at h2
            exact List.mem_flatten.mpr ⟨holder.items,
              List.mem_map_of_mem _ (List.getElem?_mem hopt),
              List.getElem?_mem h2⟩
        exact ((hdisj hv0) hvr).elim
    | succ i =>
      cases i' with
      | zero =>
        simp only [List.getElem?_cons_zero, List.getElem?_cons_succ,
          Option.some_bind] at h1 h2
        have hv0 : v ∈ h0.items := List.getElem?_mem h2
        have hvr : v ∈ (rest.map (fun h => h.items)).flatten := by
          rcases hopt : rest[i]? with _ | holder
          · rw [hopt] at h1; simp at h1
          · rw [hopt] at h1
            simp only [Option.some_bind] at h1
            exact List.mem_flatten.mpr ⟨holder.items,
              List.mem_map_of_mem _ (List.getElem?_mem hopt),
              List.getElem?_mem h1⟩
        exact ((hdisj hv0) hvr).elim
      | succ i' =>
        simp only [List.getElem?_cons_succ] at h1 h2
        obtain ⟨hi, hj⟩ := ih hndr h1 h2
        exact ⟨by omega, hj⟩

theorem getAt_inj {T : Type} {int : Interner T} (hnd : (allItems int).Nodup)
    {i j i' j' : Nat} {v : T} (h1 : getAt int i j = some v)
    (h2 : getAt int i' j' = some v) : i = i' ∧ j = j' :=
  getAtL_inj int.holders hnd h1 h2

/-! ### The well-formedness invariant is established by `new` and kept by `intern` -/

theorem nodup_append_singleton {T : Type} {l : List T} {x : T}
    (hnd : l.Nodup) (hx : x ∉ l) : (l ++ [x]).Nodup := by
  refine List.Nodup.append hnd (List.nodup_singleton x) ?_
  intro a ha hb
  rw [List.mem_singleton] at hb
  subst hb
  exact hx ha

theorem storeWF_new (T : Type) : StoreWF (Interner.new T) := by
  refine ⟨by simp [Interner.new], ?_, ?_, ?_⟩
  · intro h hmem
    simp [Interner.new] at hmem
  · intro last hlast
    simp only [Interner.new, InternedItemHolder.new, List.getLast?_singleton,
      Option.some_inj] at hlast
    subst hlast
    exact ⟨by simp [BEGIN_INTERNER_CAPACITY], by norm_num [BEGIN_INTERNER_CAPACITY],
      fun _ => rfl⟩
  · simp [allItems, Interner.new, InternedItemHolder.new]

theorem storeWF_intern {T : Type} [DecidableEq T] (int : Interner T) (x : T)
    (hwf : StoreWF int) : StoreWF (int.intern x).2 := by
  obtain ⟨hne, hfull, hlastp, hnd⟩ := hwf
  rcases hscan : Interner.scanHolders int.holders x with _ | ⟨i, j, v⟩
  · obtain ⟨l, hlast, hxlast, heq⟩ := intern_eq_new hscan hne
    rw [heq]
    have hmemx : x ∉ allItems int := (scanHolders_none_iff _ _).mp hscan
    have hnd' : (allItems (int.hold_new_item x)).Nodup := by
      rw [allItems_hold_new_item int x hne]
      exact nodup_append_singleton hnd hmemx
    obtain ⟨rest, last, hh, ⟨hfull2, hres⟩ | ⟨hnotfull, hres⟩⟩ :=
      hold_new_item_cases int x hne
    · have hlastold := hlastp last (by rw [hh, List.getLast?_concat])
      refine ⟨by rw [hres]; simp, ?_, ?_, hnd'⟩
      · intro h hmem
        rw [hres, List.dropLast_concat] at hmem
        rcases List.mem_append.mp hmem with hmem | hmem
        · exact hfull h (by rw [hh, List.dropLast_concat]; exact hmem)
        · rw [List.mem_singleton] at hmem
          subst hmem
          exact hfull2
      · intro last' hlast'
        rw [hres, List.getLast?_concat] at hlast'
        have hl' : last' = ⟨[x], nextCapacity last.capacity⟩ :=
          (Option.some_injective _ hlast').symm
        subst hl'
        have h1 : 1 ≤ last.capacity := hlastold.2.1
        have h2 : 1 ≤ nextCapacity last.capacity := by
          unfold nextCapacity
          omega
        exact ⟨by simpa using h2, by simpa using h2, by intro habs; simp at habs⟩
    · have hlastold := hlastp last (by rw [hh, List.getLast?_concat])
      refine ⟨by rw [hres]; simp, ?_, ?_, hnd'⟩
      · intro h hmem
        rw [hres, List.dropLast_concat] at hmem
        exact hfull h (by rw [hh, List.dropLast_concat]; exact hmem)
      · intro last' hlast'
        rw [hres, List.getLast?_concat] at hlast'
        have hl' : last' = ⟨last.items ++ [x], last.capacity⟩ :=
          (Option.some_injective _ hlast').symm
        subst hl'
        have hlt : last.items.length < last.capacity :=
          lt_of_le_of_ne hlastold.1 hnotfull
        refine ⟨by simpa using hlt, by simpa using hlastold.2.1, ?_⟩
        intro habs
        simp at habs
  · rw [intern_eq_found hscan]
    exact ⟨hne, hfull, hlastp, hnd⟩

theorem storeWF_internAllFrom {T : Type} [DecidableEq T] (int : Interner T)
    (xs : List T) (hwf : StoreWF int) : StoreWF (internAllFrom int xs) := by
  induction xs generalizing int with
  | nil => exact hwf
  | cons x rest ih => exact ih _ (storeWF_intern int x hwf)

theorem storeWF_internAll {T : Type} [DecidableEq T] (xs : List T) :
    StoreWF (internAll xs) :=
  storeWF_internAllFrom (Interner.new T) xs (storeWF_new T)

/-- Frame property of `hold_new_item` at the level of whole holders: every
holder present before is still present at the same index, with the same
capacity, and with its old items as an unchanged prefix. -/
theorem holders_frame_hold_new_item {T : Type} (int : Interner T) (x : T)
    {i : Nat} {h₀ : InternedItemHolder T} (hget : int.holders[i]? = some h₀) :
    ∃ h₁, (int.hold_new_item x).holders[i]? = some h₁
      ∧ h₁.capacity = h₀.capacity ∧ ∃ t, h₁.items = h₀.items ++ t := by
  by_cases hnil : int.holders = []
  · rw [hnil] at hget
    simp at hget
  · obtain ⟨rest, last, hh, ⟨_, hres⟩ | ⟨_, hres⟩⟩ := hold_new_item_cases int x hnil
    · rw [hh] at hget
      have hi : i < (rest ++ [last]).length := by
        by_contra hlt
        push_neg at hlt
        rw [List.getElem?_eq_none hlt] at hget
        exact Option.noConfusion hget
      refine ⟨h₀, ?_, rfl, [], by simp⟩
      rw [hres, List.getElem?_append_left hi]
      exact hget
    · rw [hh] at hget
      rcases Nat.lt_trichotomy i rest.length with hlt | hieq | hgt
      · refine ⟨h₀, ?_, rfl, [], by simp⟩
        rw [hres, List.getElem?_append_left hlt]
        rw [List.getElem?_append_left hlt] at hget
        exact hget
      · subst hieq
        rw [List.getElem?_concat_length] at hget
        have hlast : last = h₀ := Option.some_injective _ hget
        subst hlast
        refine ⟨⟨last.items ++ [x], last.capacity⟩, ?_, rfl, [x], rfl⟩
        rw [hres, List.getElem?_concat_length]
      · exfalso
        have hge : (rest ++ [last]).length ≤ i := by
          simp only [List.length_append, List.length_cons, List.length_nil]
          omega
        rw [List.getElem?_eq_none hge] at hget
        exact Option.noConfusion hget

/-! ### Claims -/

/-- C1: Dedup invariant: for every sequence of `intern` calls on a store
created by `new()`, the stored values are pairwise distinct (no two equal
values are ever stored simultaneously) and consist of exactly one
representative of each value occurring among the inputs, regardless of call
order or repetition. -/
theorem dedup_invariant {T : Type} [DecidableEq T] (xs : List T) :
    (allItems (internAll xs)).Nodup
    ∧ ∀ x : T, x ∈ allItems (internAll xs) ↔ x ∈ xs := by
  constructor
  · exact (storeWF_internAll xs).2.2.2
  · intro x
    rw [internAll, mem_allItems_internAllFrom (Interner.new T) xs
      (storeWF_new T).1 x]
    simp [allItems, Interner.new, InternedItemHolder.new]

/-- Witness for C1 at a concrete repetition-containing input. -/
theorem dedup_invariant_witness :
    (allItems (internAll [1, 2, 1])).Nodup
    ∧ ∀ x : Nat, x ∈ allItems (internAll [1, 2, 1]) ↔ x ∈ [1, 2, 1] :=
  dedup_invariant [1, 2, 1]

/-- C4: Address stability: an `intern` call leaves every previously occupied
slot's position and contents unchanged (so the storage location underlying any
previously issued handle keeps resolving to the same value), and keeps every
existing holder at its index with its capacity and its items as an unchanged
prefix (growth only appends). -/
theorem address_stability {T : Type} [DecidableEq T] (int : Interner T) (y : T) :
    (∀ (i j : Nat) (v : T), getAt int i j = some v →
      getAt (int.intern y).2 i j = some v)
    ∧ (∀ (i : Nat) (h₀ : InternedItemHolder T), int.holders[i]? = some h₀ →
        ∃ h₁, (int.intern y).2.holders[i]? = some h₁
          ∧ h₁.capacity = h₀.capacity ∧ ∃ t, h₁.items = h₀.items ++ t) := by
  constructor
  · intro i j v h
    exact getAt_intern_mono int y h
  · intro i h₀ hget
    rcases hscan : Interner.scanHolders int.holders y with _ | ⟨i0, j0, v0⟩
    · by_cases hnil : int.holders = []
      · rw [intern_of_empty int y hnil]
        exact ⟨h₀, hget, rfl, [], by simp⟩
      · obtain ⟨l, _, _, heq⟩ := intern_eq_new hscan hnil
        rw [heq]
        exact holders_frame_hold_new_item int y hget
    · rw [intern_eq_found hscan]
      exact ⟨h₀, hget, rfl, [], by simp⟩

/-- Witness for C4: the slot of the first interned value survives a later
intern unchanged. -/
theorem address_stability_witness :
    getAt ((internAll [5]).intern 7).2 0 0 = some 5 :=
  (address_stability (internAll [5]) 7).1 0 0 5 (by decide)

/-- C5: Growth policy: a new store has exactly one chunk of capacity 32 with
zero stored values; `hold_new_item` appends to the last chunk when it is not
full and otherwise appends a fresh chunk of capacity `⌊1.5 × capacity⌋`
holding the new value; `⌊32 × 1.5⌋ = 48`; and after interning the 33 distinct
values 0..32 the store has two chunks of capacities 32 and 48 holding 32 and
1 values. -/
theorem growth_policy :
    (Interner.new Nat).holders = [⟨[], 32⟩]
    ∧ (∀ (int : Interner Nat) (x : Nat) (rest : List (InternedItemHolder Nat))
        (last : InternedItemHolder Nat), int.holders = rest ++ [last] →
        (last.items.length ≠ last.capacity →
          (int.hold_new_item x).holders
            = rest ++ [⟨last.items ++ [x], last.capacity⟩])
        ∧ (last.items.length = last.capacity →
          (int.hold_new_item x).holders
            = rest ++ [last, ⟨[x], nextCapacity last.capacity⟩]))
    ∧ nextCapacity 32 = 48
    ∧ (internAll (List.range 33)).holders.map (fun h => h.capacity) = [32, 48]
    ∧ (internAll (List.range 33)).holders.map (fun h => h.items.length)
        = [32, 1] := by
  refine ⟨rfl, ?_, rfl, by decide, by decide⟩
  intro int x rest last hh
  have heq := hold_new_item_eq int x rest last hh
  constructor
  · intro hnef
    rw [heq, if_neg hnef]
  · intro hfull
    rw [heq, if_pos hfull]

/-- Witness for C5: filling a full one-slot chunk appends a fresh chunk with
the grown capacity and the new value. -/
theorem growth_policy_witness :
    ((⟨[⟨[0], 1⟩]⟩ : Interner Nat).hold_new_item 5).holders
      = [⟨[0], 1⟩, ⟨[5], 1⟩] :=
  (growth_policy.2.1 ⟨[⟨[0], 1⟩]⟩ 5 [] ⟨[0], 1⟩ rfl).2 rfl

/-- C6: Hash consistency: a handle's hash is computed from the storage
address only (two handles at the same address hash identically whatever the
values), and equal handles (address comparison) have equal hashes. -/
theorem hash_consistency (T : Type) :
    (∀ a b : Intern T, a.beq b = true → a.hashAddr = b.hashAddr)
    ∧ (∀ (i j : Nat) (v w : T),
        Intern.hashAddr ⟨i, j, v⟩ = Intern.hashAddr ⟨i, j, w⟩) := by
  constructor
  · intro a b hab
    unfold Intern.beq at hab
    simp only [Bool.and_eq_true, beq_iff_eq] at hab
    unfold Intern.hashAddr
    rw [hab.1, hab.2]
  · intro i j v w
    rfl

/-- Witness for C6 on two handles at the same address with different values. -/
theorem hash_consistency_witness :
    Intern.hashAddr (⟨0, 1, 5⟩ : Intern Nat) = Intern.hashAddr ⟨0, 1, 7⟩ :=
  (hash_consistency Nat).1 ⟨0, 1, 5⟩ ⟨0, 1, 7⟩ (by decide)

/-- C7: Value-based ordering: comparing two handles yields exactly the
comparison of the referenced values, independent of the storage addresses; in
particular for a store in which 5 was interned before 3, the handle of 5
compares greater than the handle of 3 although its address comes first. -/
theorem ordering_value_based :
    (∀ (T : Type) [LinearOrder T] (a b : Intern T),
      Intern.cmp a b = compare a.value b.value)
    ∧ (∀ (i j i' j' v w : Nat), Intern.cmp ⟨i, j, v⟩ ⟨i', j', w⟩ = compare v w)
    ∧ (Intern.cmp ((Interner.new Nat).intern 5).1
        ((((Interner.new Nat).intern 5).2).intern 3).1 = Ordering.gt
      ∧ ((Interner.new Nat).intern 5).1.slotIdx
          < ((((Interner.new Nat).intern 5).2).intern 3).1.slotIdx) :=
  ⟨fun T _inst a b => rfl, fun i j i' j' v w => rfl, by decide, by decide⟩

/-- C8: `try_push` semantics: pushing into a chunk holding fewer values than
its capacity succeeds and stores the value as the next occupied slot, leaving
the capacity unchanged; pushing into a chunk already holding `capacity`
values fails, hands the exact value back, and leaves the chunk (contents,
count and capacity) unchanged. -/
theorem try_push_spec {T : Type} (h : InternedItemHolder T) (x : T) :
    (h.items.length < h.capacity →
      h.try_push x = (⟨h.items ++ [x], h.capacity⟩, Except.ok ()))
    ∧ (h.items.length = h.capacity →
      h.try_push x = (h, Except.error x)) := by
  constructor
  · intro hlt
    unfold InternedItemHolder.try_push
    rw [if_neg (Nat.ne_of_lt hlt)]
  · intro heq
    unfold InternedItemHolder.try_push
    rw [if_pos heq]

/-- Witness for C8: one successful and one failing push on concrete chunks. -/
theorem try_push_spec_witness :
    (⟨[1], 2⟩ : InternedItemHolder Nat).try_push 9 = (⟨[1, 9], 2⟩, Except.ok ())
    ∧ (⟨[1, 2], 2⟩ : InternedItemHolder Nat).try_push 9
        = (⟨[1, 2], 2⟩, Except.error 9) :=
  ⟨(try_push_spec ⟨[1], 2⟩ 9).1 (by decide),
   (try_push_spec ⟨[1, 2], 2⟩ 9).2 (by decide)⟩

/-- C3: Handle identity consistency: handle equality is a storage-address
comparison, and for any two `intern` calls on the same store (in any order,
with arbitrary interleaved intern calls between them) the returned handles
compare equal exactly when the interned values are equal. -/
theorem handle_identity_consistency {T : Type} [DecidableEq T] :
    (∀ a b : Intern T, a.beq b = true ↔ a.addr = b.addr)
    ∧ ∀ (xs : List T) (x : T) (ys : List T) (y : T),
        (((internAll xs).intern x).1.beq
          ((internAllFrom ((internAll xs).intern x).2 ys).intern y).1 = true)
        ↔ x = y := by
  have hbeq : ∀ a b : Intern T, a.beq b = true ↔ a.addr = b.addr := by
    intro a b
    unfold Intern.beq Intern.addr
    simp [Prod.ext_iff]
  refine ⟨hbeq, ?_⟩
  intro xs x ys y
  have hwf1 : StoreWF (internAll xs) := storeWF_internAll xs
  obtain ⟨hval1, hget1⟩ := intern_handle_getAt (internAll xs) x hwf1.1
  have hwf2 : StoreWF ((internAll xs).intern x).2 :=
    storeWF_intern (internAll xs) x hwf1
  have hwf3 : StoreWF (internAllFrom ((internAll xs).intern x).2 ys) :=
    storeWF_internAllFrom _ ys hwf2
  obtain ⟨hval2, hget2⟩ :=
    intern_handle_getAt (internAllFrom ((internAll xs).intern x).2 ys) y hwf3.1
  have hwf4 : StoreWF
      ((internAllFrom ((internAll xs).intern x).2 ys).intern y).2 :=
    storeWF_intern _ y hwf3
  have hget1' : getAt (internAllFrom ((internAll xs).intern x).2 ys)
      ((internAll xs).intern x).1.holderIdx
      ((internAll xs).intern x).1.slotIdx = some x :=
    getAt_internAllFrom_mono _ ys hget1
  have hget1'' : getAt ((internAllFrom ((internAll xs).intern x).2 ys).intern y).2
      ((internAll xs).intern x).1.holderIdx
      ((internAll xs).intern x).1.slotIdx = some x :=
    getAt_intern_mono _ y hget1'
  rw [hbeq]
  constructor
  · intro haddr
    have hi := congrArg Prod.fst haddr
    have hj := congrArg Prod.snd haddr
    simp only [Intern.addr] at hi hj
    rw [hi, hj] at hget1''
    exact Option.some_injective _ (hget1''.symm.trans hget2)
  · intro hxy
    subst hxy
    have heqij := getAt_inj hwf4.2.2.2 hget1'' hget2
    unfold Intern.addr
    rw [heqij.1, heqij.2]

/-- Witness for C3: interning 1 and then 2 yields handles whose equality test
reflects value inequality. -/
theorem handle_identity_consistency_witness :
    (((internAll []).intern 1).1.beq
      ((internAllFrom ((internAll []).intern 1).2 []).intern 2).1 = true)
    ↔ (1 : Nat) = 2 :=
  handle_identity_consistency.2 [] 1 [] 2

/-- C9: `contains` correctness: `contains x` is true exactly when a value
equal to `x` is currently stored (the embedding of `contains` takes the store
by shared reference and returns only a Bool, so the state is unchanged by
construction); it is false on any store built from inputs avoiding `x` and
true immediately after `intern x`. -/
theorem contains_correct {T : Type} [DecidableEq T] :
    (∀ (int : Interner T) (x : T), int.contains x = true ↔ x ∈ allItems int)
    ∧ (∀ (xs : List T) (x : T), x ∉ xs → (internAll xs).contains x = false)
    ∧ (∀ (xs : List T) (x : T), ((internAll xs).intern x).2.contains x = true) := by
  have hbase : ∀ (int : Interner T) (x : T),
      int.contains x = true ↔ x ∈ allItems int := by
    intro int x
    unfold Interner.contains allItems
    simp only [List.any_eq_true, decide_eq_true_eq, List.mem_flatten,
      List.mem_map]
    constructor
    · rintro ⟨h, hh, y, hy, heq⟩
      exact ⟨h.items, ⟨h, hh, rfl⟩, heq ▸ hy⟩
    · rintro ⟨l, ⟨h, hh, hl⟩, hx⟩
      exact ⟨h, hh, x, hl ▸ hx, rfl⟩
  refine ⟨hbase, ?_, ?_⟩
  · intro xs x hx
    have hmem : x ∉ allItems (internAll xs) := by
      rw [internAll, mem_allItems_internAllFrom (Interner.new T) xs
        (storeWF_new T).1 x]
      simp only [allItems, Interner.new, InternedItemHolder.new]
      simp [hx]
    cases hc : (internAll xs).contains x
    · rfl
    · exact absurd ((hbase _ x).mp hc) hmem
  · intro xs x
    have hne := (storeWF_internAll xs).1
    rw [hbase, allItems_intern _ x hne]
    split_ifs with hmem
    · exact hmem
    · simp

/-- Witness for C9, following the spec scenario: a store of `'a'` and `'b'`
does not contain `'z'`, and does right after `intern 'z'`. -/
theorem contains_correct_witness :
    (internAll ['a', 'b']).contains 'z' = false
    ∧ ((internAll ['a', 'b']).intern 'z').2.contains 'z' = true :=
  ⟨contains_correct.2.1 ['a', 'b'] 'z' (by decide),
   contains_correct.2.2 ['a', 'b'] 'z'⟩

/-- C10: Implicit chunk-shape invariant of reachable states: every chunk but
the last is exactly full, there is always at least one chunk, the last chunk
is empty only in the initial state, and interning a value not yet stored
places it as the last slot of the last chunk (which is where the returned
handle points). -/
theorem reachable_chunk_invariant {T : Type} [DecidableEq T] (xs : List T) :
    (∀ h ∈ (internAll xs).holders.dropLast, h.items.length = h.capacity)
    ∧ (internAll xs).holders ≠ []
    ∧ (∀ last, (internAll xs).holders.getLast? = some last →
        last.items = [] → internAll xs = Interner.new T)
    ∧ (∀ x, x ∉ allItems (internAll xs) →
        ∃ last, ((internAll xs).intern x).2.holders.getLast? = some last
          ∧ last.items.getLast? = some x
          ∧ ((internAll xs).intern x).1.holderIdx
              = ((internAll xs).intern x).2.holders.length - 1
          ∧ ((internAll xs).intern x).1.slotIdx = last.items.length - 1) := by
  obtain ⟨hne, hfull, hlastp, hnd⟩ := storeWF_internAll xs
  refine ⟨hfull, hne, fun last hl => (hlastp last hl).2.2, ?_⟩
  intro x hx
  have hscan : Interner.scanHolders (internAll xs).holders x = none :=
    (scanHolders_none_iff _ _).mpr hx
  obtain ⟨l, hlast, hxlast, heq⟩ := intern_eq_new hscan hne
  have h2 : ((internAll xs).intern x).2 = (internAll xs).hold_new_item x := by
    rw [heq]
  have h1 : ((internAll xs).intern x).1
      = ⟨((internAll xs).hold_new_item x).holders.length - 1,
         l.items.length - 1, x⟩ := by
    rw [heq]
  refine ⟨l, ?_, hxlast, ?_, ?_⟩
  · rw [h2]
    exact hlast
  · rw [h1, h2]
  · rw [h1]

/-- Witness for C10: interning the fresh value 3 into the store of 1, 2 puts
it in the last slot of the last chunk, where the handle points. -/
theorem reachable_chunk_invariant_witness :
    ∃ last, ((internAll [1, 2]).intern 3).2.holders.getLast? = some last
      ∧ last.items.getLast? = some 3
      ∧ ((internAll [1, 2]).intern 3).1.holderIdx
          = ((internAll [1, 2]).intern 3).2.holders.length - 1
      ∧ ((internAll [1, 2]).intern 3).1.slotIdx = last.items.length - 1 :=
  (reachable_chunk_invariant [1, 2]).2.2.2 3 (by decide)

/-- One `Iter::next` step on an occupied slot yields a handle to that slot
and advances the cursor (to the next holder when at the holder's last item). -/
theorem iter_next_yield {T : Type} {int : Interner T} {i j : Nat}
    {holder : InternedItemHolder T} (hget : int.holders[i]? = some holder)
    {v : T} (hitem : holder.items[j]? = some v) :
    Iter.next int (i, j) = IterStep.yieldH ⟨i, j, v⟩
      (if j = holder.items.length - 1 then (i + 1, 0) else (i, j + 1)) := by
  unfold Iter.next
  simp only [hget, hitem]

/-- Running the iterator inside holder `i` from slot `j` yields handles for
the remaining items of that holder and then continues at holder `i + 1`. -/
theorem iterCollect_within {T : Type} (int : Interner T) {i : Nat}
    {holder : InternedItemHolder T} (hget : int.holders[i]? = some holder) :
    ∀ (d j fuel : Nat), j + d = holder.items.length → 0 < d →
      ∀ res, iterCollect int fuel (i + 1, 0) = some res →
        ∃ out, iterCollect int (fuel + d) (i, j) = some out
          ∧ out.map (fun h => h.value)
            = holder.items.drop j ++ res.map (fun h => h.value) := by
  intro d
  induction d with
  | zero =>
    intro j fuel hlen hpos res hres
    exact absurd hpos (lt_irrefl 0)
  | succ d ih =>
    intro j fuel hlen _ res hres
    have hj : j < holder.items.length := by omega
    obtain ⟨v, hitem⟩ : ∃ v, holder.items[j]? = some v :=
      ⟨_, List.getElem?_eq_getElem hj⟩
    have hv : holder.items[j] = v :=
      Option.some_injective _ ((List.getElem?_eq_getElem hj).symm.trans hitem)
    have hnext := iter_next_yield hget hitem
    by_cases hend : j = holder.items.length - 1
    · have hd0 : d = 0 := by omega
      subst hd0
      rw [if_pos hend] at hnext
      refine ⟨⟨i, j, v⟩ :: res, ?_, ?_⟩
      · have hstep : iterCollect int (fuel + 1) (i, j)
            = (iterCollect int fuel (i + 1, 0)).map
                (fun hs => (⟨i, j, v⟩ : Intern T) :: hs) := by
          simp only [iterCollect, hnext]
        rw [hstep, hres]
        rfl
      · have hdropnil : holder.items.drop (j + 1) = [] :=
          List.drop_eq_nil_of_le (by omega)
        rw [List.drop_eq_getElem_cons hj, hdropnil, hv]
        simp
    · rw [if_neg hend] at hnext
      obtain ⟨out, hout, hval⟩ := ih (j + 1) fuel (by omega) (by omega) res hres
      refine ⟨⟨i, j, v⟩ :: out, ?_, ?_⟩
      · have hstep : iterCollect int ((fuel + d) + 1) (i, j)
            = (iterCollect int (fuel + d) (i, j + 1)).map
                (fun hs => (⟨i, j, v⟩ : Intern T) :: hs) := by
          simp only [iterCollect, hnext]
        rw [show fuel + (d + 1) = (fuel + d) + 1 by omega, hstep, hout]
        rfl
      · simp only [List.map_cons, hval]
        rw [List.drop_eq_getElem_cons hj, hv]
        simp

/-- Running the iterator from the start of holder `i` with enough fuel yields
exactly the handles of all items of holders `i, i + 1, ...` in order, provided
every holder is nonempty. -/
theorem iterCollect_complete_from {T : Type} (int : Interner T)
    (hne : ∀ h ∈ int.holders, h.items ≠ []) :
    ∀ (n i : Nat), int.holders.length - i = n →
      ∃ out, iterCollect int
          ((((int.holders.drop i).map (fun h => h.items)).flatten).length + 1)
          (i, 0) = some out
        ∧ out.map (fun h => h.value)
          = ((int.holders.drop i).map (fun h => h.items)).flatten := by
  intro n
  induction n with
  | zero =>
    intro i hn
    have hge : int.holders.length ≤ i := by omega
    have hdrop : int.holders.drop i = [] := List.drop_eq_nil_of_le hge
    have hnone : int.holders[i]? = none := List.getElem?_eq_none hge
    rw [hdrop]
    refine ⟨[], ?_, rfl⟩
    have hstep : Iter.next int (i, 0) = IterStep.done := by
      unfold Iter.next
      rw [show ((i, 0) : Nat × Nat).1 = i from rfl, hnone]
    simp only [List.map_nil, List.flatten_nil, List.length_nil, Nat.zero_add]
    simp only [iterCollect, hstep]
  | succ n ih =>
    intro i hn
    have hi : i < int.holders.length := by omega
    obtain ⟨holder, hget⟩ : ∃ h, int.holders[i]? = some h :=
      ⟨_, List.getElem?_eq_getElem hi⟩
    have hhv : int.holders[i] = holder :=
      Option.some_injective _ ((List.getElem?_eq_getElem hi).symm.trans hget)
    have hhne : holder.items ≠ [] := hne holder (List.getElem?_mem hget)
    have hlen : 0 < holder.items.length := List.length_pos.mpr hhne
    obtain ⟨res, hres, hresval⟩ := ih (i + 1) (by omega)
    have hjd : 0 + holder.items.length = holder.items.length := by omega
    obtain ⟨out, hout, houtval⟩ := iterCollect_within int hget
      holder.items.length 0
      ((((int.holders.drop (i + 1)).map (fun h => h.items)).flatten).length + 1)
      hjd hlen res hres
    have hdropi : int.holders.drop i = holder :: int.holders.drop (i + 1) := by
      rw [List.drop_eq_getElem_cons hi, hhv]
    refine ⟨out, ?_, ?_⟩
    · rw [hdropi]
      simp only [List.map_cons, List.flatten_cons]
      have harith : (holder.items
            ++ ((int.holders.drop (i + 1)).map (fun h => h.items)).flatten).length
            + 1
          = ((((int.holders.drop (i + 1)).map (fun h => h.items)).flatten).length
            + 1) + holder.items.length := by
        simp only [List.length_append]
        omega
      rw [harith]
      exact hout
    · rw [houtval, hresval, hdropi]
      simp

/-- A full traversal of a store whose holders are all nonempty yields exactly
the stored values, in order. -/
theorem iterAll_complete {T : Type} (int : Interner T)
    (hne : ∀ h ∈ int.holders, h.items ≠ []) :
    ∃ out, iterAll int = some out
      ∧ out.map (fun h => h.value) = allItems int := by
  obtain ⟨out, hout, hval⟩ :=
    iterCollect_complete_from int hne int.holders.length 0 rfl
  refine ⟨out, ?_, ?_⟩
  · unfold iterAll
    simpa [allItems] using hout
  · simpa [allItems] using hval

/-- Every holder of a store reachable by `intern` calls has positive
capacity (capacities start at 32 and `nextCapacity` keeps positivity). -/
theorem capacity_pos_intern {T : Type} [DecidableEq T] (int : Interner T) (x : T)
    (hpos : ∀ h ∈ int.holders, 1 ≤ h.capacity) :
    ∀ h ∈ (int.intern x).2.holders, 1 ≤ h.capacity := by
  rcases hscan : Interner.scanHolders int.holders x with _ | ⟨i, j, v⟩
  · by_cases hnil : int.holders = []
    · rw [intern_of_empty int x hnil]
      exact hpos
    · obtain ⟨l, _, _, heq⟩ := intern_eq_new hscan hnil
      rw [heq]
      obtain ⟨rest, last, hh, ⟨_, hres⟩ | ⟨_, hres⟩⟩ := hold_new_item_cases int x hnil
      · intro h hmem
        rw [hres] at hmem
        rcases List.mem_append.mp hmem with hmem | hmem
        · exact hpos h (hh ▸ hmem)
        · rw [List.mem_singleton] at hmem
          subst hmem
          have hlast : 1 ≤ last.capacity :=
            hpos last (by rw [hh]; exact List.mem_append.mpr (Or.inr (by simp)))
          show 1 ≤ nextCapacity last.capacity
          unfold nextCapacity
          omega
      · intro h hmem
        rw [hres] at hmem
        rcases List.mem_append.mp hmem with hmem | hmem
        · exact hpos h (by rw [hh]; exact List.mem_append.mpr (Or.inl hmem))
        · rw [List.mem_singleton] at hmem
          subst hmem
          show 1 ≤ last.capacity
          exact hpos last (by rw [hh]; exact List.mem_append.mpr (Or.inr (by simp)))
  · rw [intern_eq_found hscan]
    exact hpos

theorem capacity_pos_internAll {T : Type} [DecidableEq T] (xs : List T) :
    ∀ h ∈ (internAll xs).holders, 1 ≤ h.capacity := by
  suffices hgen : ∀ (ys : List T) (int : Interner T),
      (∀ h ∈ int.holders, 1 ≤ h.capacity) →
      ∀ h ∈ (internAllFrom int ys).holders, 1 ≤ h.capacity by
    refine hgen xs (Interner.new T) ?_
    intro h hmem
    simp only [Interner.new, InternedItemHolder.new, List.mem_singleton] at hmem
    subst hmem
    norm_num [BEGIN_INTERNER_CAPACITY]
  intro ys
  induction ys with
  | nil => intro int hp; exact hp
  | cons y rest ih =>
    intro int hp
    exact ih _ (capacity_pos_intern int y hp)

/-- In a store reachable by interning a nonempty input list, every holder is
nonempty: holders before the last are exactly full with positive capacity,
and the last is empty only in the initial state. -/
theorem holders_nonempty_internAll {T : Type} [DecidableEq T] (xs : List T)
    (hxs : xs ≠ []) : ∀ h ∈ (internAll xs).holders, h.items ≠ [] := by
  obtain ⟨hne, hfull, hlastp, _⟩ := storeWF_internAll xs
  have hpos := capacity_pos_internAll xs
  intro h hmem
  rcases List.eq_nil_or_concat (internAll xs).holders with hnil | ⟨rest, last, hh⟩
  · exact absurd hnil hne
  rw [List.concat_eq_append] at hh
  rw [hh] at hmem
  rcases List.mem_append.mp hmem with hmem | hmem
  · have hfull2 := hfull h (by rw [hh, List.dropLast_concat]; exact hmem)
    have hp := hpos h (by rw [hh]; exact List.mem_append.mpr (Or.inl hmem))
    intro habs
    rw [habs] at hfull2
    simp only [List.length_nil] at hfull2
    omega
  · rw [List.mem_singleton] at hmem
    subst hmem
    intro habs
    have hinit := (hlastp h (by rw [hh, List.getLast?_concat])).2.2 habs
    rcases xs with _ | ⟨z, zs⟩
    · exact hxs rfl
    · have hz : z ∈ allItems (internAll (z :: zs)) := by
        rw [internAll, mem_allItems_internAllFrom (Interner.new T) (z :: zs)
          (storeWF_new T).1 z]
        simp
      rw [hinit] at hz
      simp [allItems, Interner.new, InternedItemHolder.new] at hz

set_option maxRecDepth 40000 in
/-- C2: The traversal claim fails at n = 0: on a store fresh from `new()`
(zero values interned), the first `Iter::next` call evaluates
`&holder.items[0]` on the empty initial chunk and panics (modelled by
`IterStep.crash`) instead of reporting the sequence end.  For n ≥ 1 the
traversal behaves as claimed; in particular after interning 0..99 in order,
a fresh iterator (cursor `iter` = (0,0)) yields exactly the handles of
0,...,99 in that order, and in general after interning any nonempty input
list the traversal yields exactly the stored values, in chunk-creation and
insertion order. -/
theorem iterate_empty_crash :
    Iter.next (Interner.new Nat) ((Interner.new Nat).iter) = IterStep.crash
    ∧ (iterAll (internAll (List.range 100))).map
        (fun l => l.map (fun h => h.value)) = some (List.range 100)
    ∧ (∀ xs : List Nat, xs ≠ [] →
        ∃ out, iterAll (internAll xs) = some out
          ∧ out.map (fun h => h.value) = allItems (internAll xs)) :=
  ⟨rfl, by decide, fun xs hxs =>
    iterAll_complete (internAll xs) (holders_nonempty_internAll xs hxs)⟩

/-- Witness for C2's universally quantified part at a concrete input. -/
theorem iterate_empty_crash_witness :
    ∃ out, iterAll (internAll [7, 8]) = some out
      ∧ out.map (fun h => h.value) = allItems (internAll [7, 8]) :=
  iterate_empty_crash.2.2 [7, 8] (by decide)
